import Mathlib

/-!
Verification development for the kick-vod-downloader repository.

Each definition is a shallow embedding of a function of the source tree
(`src/auto_runner.py`, `src/libs/vod_downloader.py`); the theorems settle the
spec's claims about them.
-/

namespace KickVod

/-! ## Processed-state store (`src/auto_runner.py`) -/

/-- `STATE_RETENTION = 200` (auto_runner.py line 30). -/
def STATE_RETENTION : Nat := 200

/-- The dedup pass of `_normalize_history` (auto_runner.py lines 62-70):
walk the values keeping the first occurrence of each string, tracking a
`seen` set (modelled as a list). -/
def dedupSeen (seen : List String) : List String → List String
  | [] => []
  | x :: xs => if x ∈ seen then dedupSeen seen xs else x :: dedupSeen (x :: seen) xs

/-- `_normalize_history` on an already string-typed list
(auto_runner.py lines 55-71): dedup keeping first occurrences, then
`ordered[-STATE_RETENTION:]`, i.e. keep only the most recent 200 entries. -/
def normalizeHistory (h : List String) : List String :=
  let ordered := dedupSeen [] h
  ordered.drop (ordered.length - STATE_RETENTION)

/-- One `record_processed` step (auto_runner.py lines 143-152) restricted to
its state effect: if the uuid is already processed nothing changes, otherwise
it is appended and the history re-normalized via `_set_channel_history`
(auto_runner.py lines 81-87). -/
def recordProcessed (history : List String) (uuid : String) : List String :=
  if uuid ∈ history then history else normalizeHistory (history ++ [uuid])

/-- The stored history after a sequence of `record_processed` calls starting
from an empty history. -/
def historyAfter (uuids : List String) : List String :=
  uuids.foldl recordProcessed []

lemma mem_dedupSeen_not_seen :
    ∀ (l seen : List String) (a : String), a ∈ dedupSeen seen l → a ∉ seen := by
  intro l
  induction l with
  | nil => intro seen a h; simp [dedupSeen] at h
  | cons x xs ih =>
    intro seen a h
    by_cases hx : x ∈ seen
    · rw [dedupSeen, if_pos hx] at h
      exact ih seen a h
    · rw [dedupSeen, if_neg hx] at h
      rcases List.mem_cons.mp h with rfl | h
      · exact hx
      · have := ih (x :: seen) a h
        exact fun hs => this (List.mem_cons_of_mem x hs)

lemma nodup_dedupSeen : ∀ (l seen : List String), (dedupSeen seen l).Nodup := by
  intro l
  induction l with
  | nil => intro seen; simp [dedupSeen]
  | cons x xs ih =>
    intro seen
    by_cases hx : x ∈ seen
    · rw [dedupSeen, if_pos hx]; exact ih seen
    · rw [dedupSeen, if_neg hx]
      refine List.nodup_cons.mpr ⟨?_, ih (x :: seen)⟩
      intro hmem
      exact mem_dedupSeen_not_seen xs (x :: seen) x hmem (List.mem_cons_self x seen)

lemma dedupSeen_eq_self :
    ∀ (l seen : List String), l.Nodup → (∀ a ∈ l, a ∉ seen) → dedupSeen seen l = l := by
  intro l
  induction l with
  | nil => intro seen _ _; rfl
  | cons x xs ih =>
    intro seen hnd hdis
    have hx : x ∉ seen := hdis x (List.mem_cons_self x xs)
    rw [dedupSeen, if_neg hx]
    congr 1
    refine ih (x :: seen) (List.nodup_cons.mp hnd).2 ?_
    intro a ha
    have hax : a ≠ x := by
      intro rfl_eq
      exact (List.nodup_cons.mp hnd).1 (rfl_eq ▸ ha)
    intro hmem
    rcases List.mem_cons.mp hmem with h | h
    · exact hax h
    · exact hdis a (List.mem_cons_of_mem x ha) h

lemma dedupSeen_sublist : ∀ (l seen : List String), List.Sublist (dedupSeen seen l) l := by
  intro l
  induction l with
  | nil => intro seen; simp [dedupSeen]
  | cons x xs ih =>
    intro seen
    by_cases hx : x ∈ seen
    · rw [dedupSeen, if_pos hx]
      exact (ih seen).trans (List.sublist_cons_self x xs)
    · rw [dedupSeen, if_neg hx]
      exact (ih (x :: seen)).cons₂ x

lemma normalizeHistory_sublist (h : List String) : List.Sublist (normalizeHistory h) h := by
  unfold normalizeHistory
  exact (List.drop_sublist _ _).trans (dedupSeen_sublist h [])

lemma nodup_normalizeHistory (h : List String) : (normalizeHistory h).Nodup := by
  unfold normalizeHistory
  exact (List.drop_sublist _ _).nodup (nodup_dedupSeen h [])

lemma length_normalizeHistory (h : List String) :
    (normalizeHistory h).length ≤ STATE_RETENTION := by
  unfold normalizeHistory
  simp only [List.length_drop]
  omega

lemma normalizeHistory_of_nodup (l : List String) (hl : l.Nodup) :
    normalizeHistory l = l.drop (l.length - STATE_RETENTION) := by
  unfold normalizeHistory
  rw [dedupSeen_eq_self l [] hl (by intro a _ h; simp at h)]

lemma recordProcessed_sublist (s : List String) (u : String) :
    List.Sublist (recordProcessed s u) (s ++ [u]) := by
  unfold recordProcessed
  by_cases h : u ∈ s
  · rw [if_pos h]
    exact List.sublist_append_left s [u]
  · rw [if_neg h]
    exact normalizeHistory_sublist (s ++ [u])

lemma recordProcessed_inv (s : List String) (u : String)
    (hnd : s.Nodup) (hlen : s.length ≤ STATE_RETENTION) :
    (recordProcessed s u).Nodup ∧ (recordProcessed s u).length ≤ STATE_RETENTION := by
  unfold recordProcessed
  by_cases h : u ∈ s
  · rw [if_pos h]; exact ⟨hnd, hlen⟩
  · rw [if_neg h]
    exact ⟨nodup_normalizeHistory _, length_normalizeHistory _⟩

lemma foldl_recordProcessed_inv :
    ∀ (ids : List String) (s : List String), s.Nodup → s.length ≤ STATE_RETENTION →
      (ids.foldl recordProcessed s).Nodup ∧
      (ids.foldl recordProcessed s).length ≤ STATE_RETENTION := by
  intro ids
  induction ids with
  | nil => intro s h1 h2; exact ⟨h1, h2⟩
  | cons i ids ih =>
    intro s h1 h2
    have := recordProcessed_inv s i h1 h2
    exact ih (recordProcessed s i) this.1 this.2

lemma foldl_recordProcessed_sublist :
    ∀ (ids s pre : List String), List.Sublist s pre →
      List.Sublist (ids.foldl recordProcessed s) (pre ++ ids) := by
  intro ids
  induction ids with
  | nil => intro s pre h; simpa using h
  | cons i ids ih =>
    intro s pre h
    have h1 : List.Sublist (recordProcessed s i) (pre ++ [i]) :=
      (recordProcessed_sublist s i).trans (h.append (List.Sublist.refl [i]))
    have h2 := ih (recordProcessed s i) (pre ++ [i]) h1
    simpa [List.append_assoc] using h2

/-- C1: for every sequence of `record_processed` append operations the stored
history has no duplicate id, is an order-preserving subsequence of the append
sequence (first-seen order), and never exceeds 200 entries; a new id is
appended at the end with the oldest entries dropped first once the cap is
exceeded, and an already-present id leaves the history unchanged. -/
theorem processed_history_invariant (uuids : List String) :
    (historyAfter uuids).Nodup ∧
    (historyAfter uuids).length ≤ STATE_RETENTION ∧
    List.Sublist (historyAfter uuids) uuids ∧
    (∀ s u, u ∈ s → recordProcessed s u = s) ∧
    (∀ s u, s.Nodup → u ∉ s →
      recordProcessed s u = (s ++ [u]).drop (s.length + 1 - STATE_RETENTION)) := by
  refine ⟨?_, ?_, ?_, ?_, ?_⟩
  · exact (foldl_recordProcessed_inv uuids [] (by simp) (by simp [STATE_RETENTION])).1
  · exact (foldl_recordProcessed_inv uuids [] (by simp) (by simp [STATE_RETENTION])).2
  · simpa using foldl_recordProcessed_sublist uuids [] [] (List.Sublist.refl [])
  · intro s u h
    unfold recordProcessed
    rw [if_pos h]
  · intro s u hnd hu
    unfold recordProcessed
    rw [if_neg hu]
    have hnd' : (s ++ [u]).Nodup := by
      rw [List.nodup_append]
      exact ⟨hnd, List.nodup_singleton u, by
        intro a ha hb
        rcases List.mem_singleton.mp hb with rfl
        exact hu ha⟩
    rw [normalizeHistory_of_nodup _ hnd']
    simp [List.length_append]

/-- Concrete instance of the C1 invariant: appending "a", "b", then "a" again
stores exactly ["a", "b"]. -/
theorem processed_history_invariant_w :
    recordProcessed ["a"] "b" = ["a", "b"] := by
  have h := (processed_history_invariant []).2.2.2.2 ["a"] "b" (by decide) (by decide)
  exact h.trans (by decide)

/-! ## State persistence (`_save_state`, `_load_state`, `_set_channel_history`) -/

/-- The persisted state: a JSON object whose keys are channel names and whose
values are the per-channel history arrays, modelled as an ordered association
list (Python dicts preserve insertion order). -/
abbrev StateData : Type := List (String × List String)

/-- A minimal filesystem: a map from path to the (fully written) content of
the file at that path, `none` when absent. -/
structure FS where
  files : String → Option StateData

/-- Writing a complete file at a path (the `open(tmp, "w")` + `json.dump`
step of `_save_state`, auto_runner.py lines 50-51). -/
def fsWrite (fs : FS) (p : String) (d : StateData) : FS :=
  ⟨fun q => if q = p then some d else fs.files q⟩

/-- `os.replace(src, dst)` (auto_runner.py line 52): atomically move the file
at `src` over `dst`; `src` disappears. -/
def fsReplace (fs : FS) (src dst : String) : FS :=
  ⟨fun q => if q = dst then fs.files src else if q = src then none else fs.files q⟩

/-- `_save_state` (auto_runner.py lines 48-52): write the full new state to
`path + ".tmp"`, then atomically rename it over `path`. -/
def saveState (fs : FS) (path : String) (d : StateData) : FS :=
  fsReplace (fsWrite fs (path ++ ".tmp") d) (path ++ ".tmp") path

/-- The filesystem state if the process crashes after the temp-file write but
before the rename. -/
def saveStateCrashed (fs : FS) (path : String) (d : StateData) : FS :=
  fsWrite fs (path ++ ".tmp") d

/-- `_load_state` (auto_runner.py lines 40-45): read and parse the state
file; any failure (absent file) yields the empty state. -/
def loadState (fs : FS) (path : String) : StateData :=
  (fs.files path).getD []

lemma tmp_ne_path (path : String) : path ++ ".tmp" ≠ path := by
  intro h
  have h1 : (path ++ ".tmp").length = path.length := congrArg String.length h
  rw [String.length_append] at h1
  have h2 : ".tmp".length = 4 := rfl
  omega

/-- C7: every state persist writes the full new state to a temporary file and
atomically renames it over the state file; a crash between the temp-file
write and the rename leaves the prior state file byte-for-byte intact, and a
completed save leaves exactly the complete new state at the path. -/
theorem save_state_atomic (fs : FS) (path : String) (d : StateData) :
    (saveStateCrashed fs path d).files path = fs.files path ∧
    (saveState fs path d).files path = some d := by
  constructor
  · simp [saveStateCrashed, fsWrite, (tmp_ne_path path).symm]
  · simp [saveState, fsWrite, fsReplace]

/-- Looking a channel up in the persisted state object (`state.get(channel)`
at auto_runner.py line 77, restricted to present keys). -/
def dictGet (d : StateData) (k : String) : Option (List String) :=
  (d.find? (fun kv => kv.1 = k)).map (fun kv => kv.2)

/-- Python dict assignment `state[channel] = normalized` (auto_runner.py
line 85): replace the value at an existing key in place, else append the new
binding. -/
def dictSet (d : StateData) (k : String) (v : List String) : StateData :=
  if d.any (fun kv => kv.1 = k) then
    d.map (fun kv => if kv.1 = k then (k, v) else kv)
  else
    d ++ [(k, v)]

/-- `_set_channel_history` (auto_runner.py lines 81-87): normalize the new
history, re-load the full state from disk, overwrite only the target
channel's entry, and persist atomically. -/
def setChannelHistory (fs : FS) (path channel : String) (history : List String) : FS :=
  saveState fs path (dictSet (loadState fs path) channel (normalizeHistory history))

lemma find?_map_setKey (k other : String) (v : List String) (h : other ≠ k) :
    ∀ (d : StateData),
      List.find? (fun kv => kv.1 = other)
          (d.map (fun kv => if kv.1 = k then (k, v) else kv)) =
        List.find? (fun kv => kv.1 = other) d := by
  intro d
  induction d with
  | nil => rfl
  | cons kv rest ih =>
    by_cases hkv : kv.1 = k
    · have h1 : (if kv.1 = k then (k, v) else kv) = (k, v) := if_pos hkv
      simp only [List.map_cons, h1, List.find?]
      have h2 : (decide ((k, v).1 = other)) = false := by
        simp [Ne.symm h]
      have h3 : (decide (kv.1 = other)) = false := by
        simp [hkv, Ne.symm h]
      rw [h2, h3]
      exact ih
    · have h1 : (if kv.1 = k then (k, v) else kv) = kv := if_neg hkv
      simp only [List.map_cons, h1, List.find?]
      by_cases ho : kv.1 = other
      · simp [ho]
      · have h3 : (decide (kv.1 = other)) = false := by simp [ho]
        rw [h3]
        exact ih

lemma dictGet_dictSet_ne (d : StateData) (k other : String) (v : List String)
    (h : other ≠ k) : dictGet (dictSet d k v) other = dictGet d other := by
  unfold dictSet
  by_cases hk : d.any (fun kv => kv.1 = k)
  · rw [if_pos hk]
    unfold dictGet
    rw [find?_map_setKey k other v h d]
  · rw [if_neg hk]
    unfold dictGet
    rw [List.find?_append]
    have hnone : List.find? (fun kv => kv.1 = other) [(k, v)] = none := by
      simp [List.find?, Ne.symm h]
    rw [hnone]
    simp

/-- C9: a state write for one channel leaves the persisted entry of every
other channel present in the backing store unchanged. -/
theorem set_channel_history_frame (fs : FS) (path channel other : String)
    (history : List String) (h : other ≠ channel) :
    dictGet (loadState (setChannelHistory fs path channel history) path) other =
      dictGet (loadState fs path) other := by
  have hload : loadState (setChannelHistory fs path channel history) path =
      dictSet (loadState fs path) channel (normalizeHistory history) := by
    unfold setChannelHistory loadState
    rw [(save_state_atomic fs path _).2]
    rfl
  rw [hload]
  exact dictGet_dictSet_ne _ _ _ _ h

/-- Concrete instance of the C9 frame property: writing channel "a" into an
empty store does not change what is stored for channel "b". -/
theorem set_channel_history_frame_w :
    dictGet (loadState (setChannelHistory ⟨fun _ => none⟩ "s" "a" ["x"]) "s") "b" =
      dictGet (loadState (⟨fun _ => none⟩ : FS) "s") "b" :=
  set_channel_history_frame ⟨fun _ => none⟩ "s" "a" "b" ["x"] (by decide)

/-! ## Stream-end heuristic (`stream_vod_from_m3u8`, vod_downloader.py 436-488) -/

/-- One successful playlist poll as seen by the streaming loop: the total
number of listed segments (`len(segs)`) and whether the playlist carried an
`#EXT-X-ENDLIST` marker (`ended`, returned by `parse_playlist` and then
deliberately ignored by the loop). -/
abbrev Poll : Type := Nat × Bool

/-- The finalization decision of the streaming poll loop
(vod_downloader.py lines 477-485), tracking
`last_playlist_segment_count`: given the previous count (`none` before the
first successful poll), return the 0-based index (offset by `i`) of the poll
at which the loop breaks to finalize, or `none` if the given polls never
trigger the heuristic. The `ended` flag of each poll is never consulted
(line 475: "Ignore ENDLIST"). -/
def triggerAux (last : Option Nat) (i : Nat) : List Poll → Option Nat
  | [] => none
  | p :: rest =>
    match last with
    | some l => if p.1 ≤ l then some i else triggerAux (some p.1) (i + 1) rest
    | none => triggerAux (some p.1) (i + 1) rest

/-- Index of the successful poll at which `stream_vod_from_m3u8` finalizes
(starting with `last_playlist_segment_count = None`). -/
def triggerIdx (polls : List Poll) : Option Nat :=
  triggerAux none 0 polls

/-- Spec-side reading of the claim: the first index `i ≥ 1` at which the
count does not exceed the previous count, expressed over the consecutive
pairs `(counts[i-1], counts[i])`. -/
def firstNonIncreaseFrom (i : Nat) : List (Nat × Nat) → Option Nat
  | [] => none
  | pc :: rest => if pc.2 ≤ pc.1 then some i else firstNonIncreaseFrom (i + 1) rest

/-- The first poll after the first one whose total listed-segment count does
not exceed the previous poll's count. -/
def firstNonIncrease (counts : List Nat) : Option Nat :=
  firstNonIncreaseFrom 1 (counts.zip counts.tail)

lemma triggerAux_eq_firstNonIncreaseFrom :
    ∀ (rest : List Poll) (prev : Nat) (i : Nat),
      triggerAux (some prev) i rest =
        firstNonIncreaseFrom i ((prev :: rest.map Prod.fst).zip (rest.map Prod.fst)) := by
  intro rest
  induction rest with
  | nil => intro prev i; rfl
  | cons p rest ih =>
    intro prev i
    simp only [triggerAux, List.map_cons, List.zip_cons_cons, firstNonIncreaseFrom]
    by_cases h : p.1 ≤ prev
    · rw [if_pos h, if_pos h]
    · rw [if_neg h, if_neg h]
      exact ih p.1 (i + 1)

lemma firstNonIncreaseFrom_ge :
    ∀ (l : List (Nat × Nat)) (i j : Nat), firstNonIncreaseFrom i l = some j → i ≤ j := by
  intro l
  induction l with
  | nil => intro i j h; simp [firstNonIncreaseFrom] at h
  | cons pc rest ih =>
    intro i j h
    unfold firstNonIncreaseFrom at h
    by_cases hc : pc.2 ≤ pc.1
    · rw [if_pos hc] at h
      exact le_of_eq (Option.some.inj h)
    · rw [if_neg hc] at h
      have := ih (i + 1) j h
      omega

/-- C2: in streaming mode the loop finalizes exactly at the first successful
poll (after the first) whose total listed-segment count does not exceed the
previous successful poll's count; the first poll never triggers it; counts
[12, 15, 15] trigger it only at the third poll, whatever the ENDLIST flags
say; the ENDLIST marker is never consulted (the decision depends only on the
counts). -/
theorem stream_end_heuristic (polls : List Poll) :
    triggerIdx polls = firstNonIncrease (polls.map Prod.fst) ∧
    triggerIdx polls ≠ some 0 ∧
    (∀ e1 e2 e3 : Bool, triggerIdx [(12, e1), (15, e2), (15, e3)] = some 2) := by
  refine ⟨?_, ?_, ?_⟩
  · cases polls with
    | nil => rfl
    | cons p rest =>
      show triggerAux (some p.1) 1 rest = _
      rw [triggerAux_eq_firstNonIncreaseFrom rest p.1 1]
      rfl
  · intro h
    cases polls with
    | nil => simp [triggerIdx, triggerAux] at h
    | cons p rest =>
      have h1 : triggerAux (some p.1) 1 rest = some 0 := h
      rw [triggerAux_eq_firstNonIncreaseFrom rest p.1 1] at h1
      have := firstNonIncreaseFrom_ge _ 1 0 h1
      omega
  · intro e1 e2 e3
    rfl

/-- Concrete instance of the C2 heuristic: counts [12, 15, 15] finalize at
index 2 (the third poll), even with the end-of-playlist marker raised on
every poll. -/
theorem stream_end_heuristic_w :
    triggerIdx [(12, true), (15, true), (15, true)] = some 2 :=
  (stream_end_heuristic []).2.2 true true true

/-! ## Character-level string operations

The Python source uses `str.strip`, `str.split`, `str.startswith`,
`str.endswith`, the `in` operator, `str.rsplit`, `os.path.basename` and
`urllib.parse.urlparse`. They are embedded here as structurally recursive
functions over the character data of a `String`, so that a concrete run
reduces inside the kernel. -/

/-- The whitespace stripped by `str.strip()` (restricted to the blank
characters that occur in playlist text). -/
def isSpaceChar (c : Char) : Bool := c == ' ' || c == '\t' || c == '\n' || c == '\r'

/-- `line.strip()`. -/
def strTrim (s : String) : String :=
  ⟨((s.data.dropWhile isSpaceChar).reverse.dropWhile isSpaceChar).reverse⟩

/-- `s.startswith(pre)`. -/
def strStartsWith (s pre : String) : Bool := pre.data.isPrefixOf s.data

/-- `s.endswith(suf)`. -/
def strEndsWith (s suf : String) : Bool := suf.data.isSuffixOf s.data

def splitOnCharAux (sep : Char) : List Char → List Char → List (List Char)
  | [], acc => [acc.reverse]
  | c :: rest, acc =>
    if c == sep then acc.reverse :: splitOnCharAux sep rest []
    else splitOnCharAux sep rest (c :: acc)

/-- `s.split(sep)` for a one-character separator. -/
def splitOnChar (sep : Char) (s : String) : List String :=
  (splitOnCharAux sep s.data []).map (fun l => ⟨l⟩)

/-- `sep.join(parts)`. -/
def strIntercalate (sep : String) : List String → String
  | [] => ""
  | [x] => x
  | x :: y :: xs => x ++ sep ++ strIntercalate sep (y :: xs)

/-- Drop the first `n` characters of a string. -/
def strDrop (s : String) (n : Nat) : String := ⟨s.data.drop n⟩

def containsSubAux (needle : List Char) : List Char → Bool
  | [] => needle.isEmpty
  | c :: rest => needle.isPrefixOf (c :: rest) || containsSubAux needle rest

/-- Python's `needle in hay` substring test. -/
def strContainsSub (hay needle : String) : Bool := containsSubAux needle.toList hay.toList

/-! ## Streaming-mode playlist parsing and segment dedup
(`stream_vod_from_m3u8`, vod_downloader.py lines 303-473) -/

/-- `[line.strip() for line in text.splitlines() if line.strip()]`
(vod_downloader.py line 336). -/
def stripLines (text : String) : List String :=
  ((splitOnChar '\n' text).map strTrim).filter (fun l => l ≠ "")

/-- `re.match(r'^https?://', line)` (vod_downloader.py line 347). -/
def startsHttp (line : String) : Bool :=
  strStartsWith line "http://" || strStartsWith line "https://"

/-- `playlist_url.rsplit('/', 1)[0]` (vod_downloader.py line 339). -/
def rsplitBase (s : String) : String :=
  let parts := splitOnChar '/' s
  if parts.length ≤ 1 then s else strIntercalate "/" parts.dropLast

/-- The part of `s` before the first occurrence of `sep`. -/
def cutAtFirst (sep : Char) (s : String) : String := (splitOnChar sep s).headD s

/-- `os.path.basename(p)`: the part after the last slash. -/
def afterLastSlash (s : String) : String := (splitOnChar '/' s).getLastD s

def pathAfterHost (rest : String) : String :=
  let parts := splitOnChar '/' rest
  if parts.length ≤ 1 then "" else "/" ++ strIntercalate "/" (parts.drop 1)

/-- `urlparse(u).path`: strip any query and fragment, and for an http(s) URL
also the scheme and authority; a scheme-less string is all path. -/
def urlPath (u : String) : String :=
  let cut := cutAtFirst '#' (cutAtFirst '?' u)
  if strStartsWith cut "http://" then pathAfterHost (strDrop cut 7)
  else if strStartsWith cut "https://" then pathAfterHost (strDrop cut 8)
  else cut

/-- The local filename of a segment
(`os.path.basename(urlparse(full_url).path)`, padded with ".ts" when
needed; vod_downloader.py lines 349-351). -/
def localNameOf (fullUrl : String) : String :=
  let name := afterLastSlash (urlPath fullUrl)
  if strEndsWith name ".ts" then name else name ++ ".ts"

/-- `parse_playlist` (vod_downloader.py lines 334-353): the list of
`(segment_url, local_filename)` pairs and whether `#EXT-X-ENDLIST` occurs. -/
def parsePlaylist (playlistUrl text : String) : List (String × String) × Bool :=
  let lines := stripLines text
  match lines with
  | [] => ([], false)
  | l0 :: _ =>
    if strStartsWith l0 "#EXTM3U" then
      let baseUrl := rsplitBase playlistUrl
      let ended := lines.any (fun l => strContainsSub l "#EXT-X-ENDLIST")
      let segs := lines.filterMap (fun line =>
        if strStartsWith line "#" then none
        else if strEndsWith line ".ts" then
          let fullUrl := if startsHttp line then line else baseUrl ++ "/" ++ line
          some (fullUrl, localNameOf fullUrl)
        else none)
      (segs, ended)
    else ([], false)

/-- The resumability scan at startup (vod_downloader.py line 327): the `.ts`
files already present in the segments directory. -/
def initialDownloaded (dirFiles : List String) : List String :=
  dirFiles.filter (fun f => strEndsWith f ".ts")

/-- The per-poll dedup (vod_downloader.py line 459):
`[(u, n) for (u, n) in segs if n not in downloaded_files]` — only segments
whose local filename is not yet downloaded are fetched. -/
def newSegments (downloaded : List String) (segs : List (String × String)) :
    List (String × String) :=
  segs.filter (fun s => !(downloaded.contains s.2))

/-- C3: in streaming mode a listed segment is fetched exactly when its
derived local filename is absent from the set of already-downloaded files;
with files {0.ts, 1.ts} on disk and a playlist listing 0.ts, 1.ts, 2.ts,
only 2.ts is downloaded. -/
theorem streaming_resumability (downloaded : List String)
    (segs : List (String × String)) :
    (∀ s, s ∈ newSegments downloaded segs ↔ s ∈ segs ∧ s.2 ∉ downloaded) ∧
    newSegments (initialDownloaded ["0.ts", "1.ts"])
        (parsePlaylist "https://h/v/playlist.m3u8" "#EXTM3U\n0.ts\n1.ts\n2.ts").1 =
      [("https://h/v/2.ts", "2.ts")] := by
  constructor
  · intro s
    simp [newSegments, List.mem_filter]
  · decide

/-- Concrete instance of C3: with 0.ts and 1.ts on disk, polling a playlist
that lists 0.ts, 1.ts and 2.ts downloads only 2.ts. -/
theorem streaming_resumability_w :
    newSegments (initialDownloaded ["0.ts", "1.ts"])
        (parsePlaylist "https://h/v/playlist.m3u8" "#EXTM3U\n0.ts\n1.ts\n2.ts").1 =
      [("https://h/v/2.ts", "2.ts")] :=
  (streaming_resumability [] []).2

/-! ## Bulk-mode segment loop (`download_vod_from_m3u8`, vod_downloader.py 226-296) -/

/-- `SEGMENT_MAX_FAILURES = 10` (vod_downloader.py line 34). -/
def SEGMENT_MAX_FAILURES : Nat := 10

/-- The bulk segment-download loop (vod_downloader.py lines 226-258)
abstracted over the per-segment outcome (`true` = the segment's HTTP GET
returned 200 and its bytes were appended, `false` = non-200 status or a
raised error). Each failure increments `failed_segments` and aborts the
whole video (`return None`, modelled `none`) as soon as the counter reaches
`SEGMENT_MAX_FAILURES`; otherwise the loop finishes with the failure
count. -/
def bulkDownloadLoop (failed : Nat) : List Bool → Option Nat
  | [] => some failed
  | ok :: rest =>
    if ok then bulkDownloadLoop failed rest
    else if SEGMENT_MAX_FAILURES ≤ failed + 1 then none
    else bulkDownloadLoop (failed + 1) rest

/-- `download_vod_from_m3u8` after the playlist has been parsed: run the
segment loop; only if it completes is ffmpeg conversion reached, whose
result (`some path` on success) is the function's result
(vod_downloader.py lines 265-296). -/
def downloadVodFromM3u8 (outcomes : List Bool) (conv : Option String) : Option String :=
  match bulkDownloadLoop 0 outcomes with
  | none => none
  | some _ => conv

lemma bulkDownloadLoop_none_iff :
    ∀ (os : List Bool) (f : Nat),
      bulkDownloadLoop f os = none ↔
        1 ≤ os.countP (fun b => !b) ∧
          SEGMENT_MAX_FAILURES ≤ f + os.countP (fun b => !b) := by
  intro os
  induction os with
  | nil =>
    intro f
    simp [bulkDownloadLoop]
  | cons ok rest ih =>
    intro f
    cases ok with
    | true =>
      have hc : List.countP (fun b => !b) (true :: rest) =
          List.countP (fun b => !b) rest := by
        simp [List.countP_cons]
      rw [hc]
      show bulkDownloadLoop f rest = none ↔ _
      exact ih f
    | false =>
      have hc : List.countP (fun b => !b) (false :: rest) =
          List.countP (fun b => !b) rest + 1 := by
        simp [List.countP_cons]
      rw [hc]
      show (if SEGMENT_MAX_FAILURES ≤ f + 1 then none
            else bulkDownloadLoop (f + 1) rest) = none ↔ _
      by_cases h : SEGMENT_MAX_FAILURES ≤ f + 1
      · rw [if_pos h]
        constructor
        · intro _
          exact ⟨by omega, by omega⟩
        · intro _
          rfl
      · rw [if_neg h]
        rw [ih (f + 1)]
        constructor
        · intro ⟨h1, h2⟩
          exact ⟨by omega, by omega⟩
        · intro ⟨h1, h2⟩
          constructor
          · omega
          · omega

/-- C6: the bulk download aborts with no result exactly when the number of
failed segment fetches reaches `SEGMENT_MAX_FAILURES = 10`; with fewer than
10 failures the run always proceeds to conversion. -/
theorem bulk_failure_abort (outcomes : List Bool) (conv : Option String) :
    (SEGMENT_MAX_FAILURES ≤ outcomes.countP (fun b => !b) →
      downloadVodFromM3u8 outcomes conv = none) ∧
    (outcomes.countP (fun b => !b) < SEGMENT_MAX_FAILURES →
      downloadVodFromM3u8 outcomes conv = conv) := by
  constructor
  · intro h
    unfold downloadVodFromM3u8
    have hn : bulkDownloadLoop 0 outcomes = none := by
      rw [bulkDownloadLoop_none_iff]
      refine ⟨?_, ?_⟩
      · have : (0 : Nat) < SEGMENT_MAX_FAILURES := by
          simp [SEGMENT_MAX_FAILURES]
        omega
      · omega
    rw [hn]
  · intro h
    unfold downloadVodFromM3u8
    cases hn : bulkDownloadLoop 0 outcomes with
    | none =>
      rw [bulkDownloadLoop_none_iff] at hn
      omega
    | some k => rfl

/-- Concrete instance of C6: ten failed segments abort the video with no
result, nine failed segments still reach conversion. -/
theorem bulk_failure_abort_w :
    downloadVodFromM3u8 (List.replicate 10 false) (some "x.mp3") = none :=
  (bulk_failure_abort (List.replicate 10 false) (some "x.mp3")).1 (by decide)

/-! ## HTTP transport escalation (`_http_get`, vod_downloader.py 60-100) -/

/-- Outcome of one network attempt: `err` abstracts a raised request
exception (tagged so distinct errors stay distinct), `status` a completed
response with its HTTP status code. -/
inductive HttpOutcome where
  | err : Nat → HttpOutcome
  | status : Nat → HttpOutcome
deriving DecidableEq

/-- The two conditions under which `_http_get` escalates (vod_downloader.py
lines 88-99): a raised exception, or a completed response with status
403. -/
def isRetryTrigger : HttpOutcome → Bool
  | .err _ => true
  | .status n => n == 403

/-- `_create_http_client(force_cloudscraper=True)` (vod_downloader.py lines
60-79), reduced to whether the resulting client is the challenge-solving
one: it is exactly when the cloudscraper module is importable (`csAvail`)
and `create_scraper()` succeeds (`csInitOk`); on creation failure the code
falls back to a plain `requests.Session`. -/
def createClientUsesCs (csAvail csInitOk : Bool) : Bool := csAvail && csInitOk

/-- One `_http_get` call (vod_downloader.py lines 81-100). The network is a
function from the client kind in use (`true` = challenge-solving client) to
the outcome of the request. On an exception or a 403, when cloudscraper is
available and not already active, the client is replaced and the same
request retried exactly once with `allow_retry=False` (so the retry itself
can never retry). Returns (outcome surfaced to the caller, client kind
afterwards, number of attempts made). -/
def httpGet (csAvail csInitOk : Bool) (net : Bool → HttpOutcome) (usesCs : Bool) :
    HttpOutcome × Bool × Nat :=
  if isRetryTrigger (net usesCs) && csAvail && !usesCs then
    let u := createClientUsesCs csAvail csInitOk
    (net u, u, 2)
  else (net usesCs, usesCs, 1)

/-- C5: every `_http_get` call makes at most two attempts; with the
challenge-solving client already active no retry ever happens and the
client is kept (the upgrade is permanent for the rest of the process); on
an exception or 403 with cloudscraper available and not active, the call
switches to the challenge-solving client and retries exactly once; without
a trigger the response is returned as is; and if the upgrade itself fails
the surfaced outcome is the original one (the plain client's outcome for
this request). -/
theorem http_transport_escalation (csAvail csInitOk usesCs : Bool)
    (net : Bool → HttpOutcome) :
    ((httpGet csAvail csInitOk net usesCs).2.2 ≤ 2) ∧
    (usesCs = true → httpGet csAvail csInitOk net usesCs = (net true, true, 1)) ∧
    (isRetryTrigger (net usesCs) = true → csAvail = true → usesCs = false →
      httpGet csAvail csInitOk net usesCs = (net csInitOk, csInitOk, 2)) ∧
    (isRetryTrigger (net usesCs) = false →
      httpGet csAvail csInitOk net usesCs = (net usesCs, usesCs, 1)) ∧
    (csAvail = true → usesCs = false → csInitOk = false →
      (httpGet csAvail csInitOk net usesCs).1 = net usesCs) := by
  refine ⟨?_, ?_, ?_, ?_, ?_⟩
  · unfold httpGet
    split
    · exact le_refl 2
    · show (1 : Nat) ≤ 2
      omega
  · intro h
    subst h
    simp [httpGet]
  · intro ht ha hu
    subst ha
    subst hu
    simp [httpGet, ht, createClientUsesCs]
  · intro ht
    simp [httpGet, ht]
  · intro ha hu hi
    subst ha
    subst hu
    subst hi
    cases ht : isRetryTrigger (net false) with
    | true => simp [httpGet, ht, createClientUsesCs]
    | false => simp [httpGet, ht]

/-- Concrete instance of C5: a 403 on the plain client with cloudscraper
available upgrades the transport and retries exactly once. -/
theorem http_transport_escalation_w :
    httpGet true true (fun u => if u then .status 200 else .status 403) false =
      (.status 200, true, 2) :=
  (http_transport_escalation true true false
      (fun u => if u then .status 200 else .status 403)).2.2.1 rfl rfl rfl

/-! ## Suggested basename (`build_suggested_basename`, vod_downloader.py 834-865) -/

/-- The character class kept by `re.sub(r'[^A-Za-z0-9_.\-]+', '_', raw)`
(vod_downloader.py line 865). -/
def allowedChar (c : Char) : Bool :=
  (decide ('A' ≤ c) && decide (c ≤ 'Z')) ||
  (decide ('a' ≤ c) && decide (c ≤ 'z')) ||
  (decide ('0' ≤ c) && decide (c ≤ '9')) ||
  c == '_' || c == '.' || c == '-'

/-- `re.sub(r'[^A-Za-z0-9_.\-]+', '_', raw)`: every maximal run of
disallowed characters becomes a single underscore. `prevBad` records whether
the previous character belonged to a run already replaced. -/
def sanitizeAux : Bool → List Char → List Char
  | _, [] => []
  | prevBad, c :: cs =>
    if allowedChar c then c :: sanitizeAux false cs
    else if prevBad then sanitizeAux true cs
    else '_' :: sanitizeAux true cs

/-- The sanitization applied to the suggested basename (vod_downloader.py
line 865) and again to `output_basename` in both download entry points
(lines 209 and 321). -/
def sanitizeBasename (s : String) : String := ⟨sanitizeAux false s.data⟩

/-- `re.match(r'^(\d+p)', str(preferred_variant))` (vod_downloader.py lines
856-858): a leading digit run immediately followed by 'p'. -/
def leadingResLabel (p : String) : Option String :=
  let ds := p.data.takeWhile Char.isDigit
  if ds.isEmpty then none
  else
    match p.data.drop ds.length with
    | 'p' :: _ => some ⟨ds ++ ['p']⟩
    | _ => none

/-- `build_suggested_basename` (vod_downloader.py lines 834-865). The date
component is abstracted as an input string: it is produced by
`strftime('%Y-%m-%d_%H-%M')` on the metadata timestamp or the current time,
or is the literal `'unknown-date'`; the claim quantifies over all metadata,
hence over every `dateStr`. -/
def buildSuggestedBasename (channel dateStr : String) (preferred : Option String) :
    String :=
  let variantLabel :=
    match preferred with
    | some p =>
      if p ≠ "" then
        match leadingResLabel p with
        | some l => l
        | none => p
      else "480p"
    | none => "480p"
  sanitizeBasename (channel ++ "_" ++ dateStr ++ "_" ++ variantLabel)

lemma sanitizeAux_all :
    ∀ (cs : List Char) (prevBad : Bool),
      (sanitizeAux prevBad cs).all allowedChar = true := by
  intro cs
  induction cs with
  | nil => intro prevBad; rfl
  | cons c rest ih =>
    intro prevBad
    by_cases h : allowedChar c = true
    · simp [sanitizeAux, h, ih false]
    · have h' : allowedChar c = false := by
        cases hb : allowedChar c
        · rfl
        · exact absurd hb h
      cases prevBad with
      | true => simpa [sanitizeAux, h'] using ih true
      | false =>
        have hu : allowedChar '_' = true := by decide
        simp [sanitizeAux, h', hu, ih true]

/-- C10: for every channel name, metadata-derived date string and preferred
variant, the suggested basename consists only of characters in
[A-Za-z0-9_.-]; in particular it never contains a path separator, so the
work-directory name and the .mp3 filename derived from it cannot escape the
download directory. A maximal run of disallowed characters collapses to a
single underscore. -/
theorem basename_sanitized (channel dateStr : String) (preferred : Option String) :
    ((buildSuggestedBasename channel dateStr preferred).data.all allowedChar = true) ∧
    '/' ∉ (buildSuggestedBasename channel dateStr preferred).data ∧
    sanitizeBasename "my channel/|x" = "my_channel_x" ∧
    buildSuggestedBasename "my channel" "2024-01-02_03-04" (some "480p30") =
      "my_channel_2024-01-02_03-04_480p" := by
  have hall : (buildSuggestedBasename channel dateStr preferred).data.all allowedChar
      = true := by
    unfold buildSuggestedBasename sanitizeBasename
    exact sanitizeAux_all _ false
  refine ⟨hall, ?_, by decide, by decide⟩
  intro hmem
  have := (List.all_eq_true.mp hall) '/' hmem
  simp [allowedChar] at this

/-- Concrete instance of C10: a channel name with a space, a slash and a
pipe yields a basename with the separator runs collapsed to underscores. -/
theorem basename_sanitized_w :
    buildSuggestedBasename "my channel" "2024-01-02_03-04" (some "480p30") =
      "my_channel_2024-01-02_03-04_480p" :=
  (basename_sanitized "c" "d" none).2.2.2

/-! ## Variant selection (`_pick_variant_from_master`, vod_downloader.py 700-756) -/

/-- `int(m.group(1))` on a digit run. -/
def digitsToNat (ds : List Char) : Nat :=
  ds.foldl (fun acc c => acc * 10 + (c.toNat - 48)) 0

def bandwidthAux : List Char → Option Nat
  | [] => none
  | c :: cs =>
    if ("BANDWIDTH=").data.isPrefixOf (c :: cs) then
      let ds := ((c :: cs).drop ("BANDWIDTH=").data.length).takeWhile Char.isDigit
      if ds.isEmpty then bandwidthAux cs else some (digitsToNat ds)
    else bandwidthAux cs

/-- `re.search(r'BANDWIDTH=(\d+)', line)` (vod_downloader.py lines
726-732): the first digit run following a `BANDWIDTH=` tag, `none` when no
occurrence of the tag is followed by a digit. -/
def extractBandwidth (line : String) : Option Nat := bandwidthAux line.data

/-- The variant-collecting while loop of `_pick_variant_from_master`
(vod_downloader.py lines 718-743) as a one-pass state machine. The Python
loop, on a `#EXT-X-STREAM-INF` line at index `i`, scans forward with `j`
past empty and `#`-starting lines to the variant URI, appends
`(bandwidth, uri)`, and resumes at `j + 1`; lines skipped by the `j` scan
are never re-examined. Equivalently: `pending = some bw` while the URI for
a captured stream-inf line is still being looked for (empty and
`#`-starting lines are passed over, exactly the ones the `j` scan skips),
and `pending = none` while scanning for the next `#EXT-X-STREAM-INF`. A
relative URI is resolved against the playlist's base URL. -/
def parseMasterAux (baseUrl : String) (pending : Option (Option Nat)) :
    List String → List (Option Nat × String)
  | [] => []
  | line :: rest =>
    match pending with
    | some bw =>
      if line = "" || strStartsWith line "#" then parseMasterAux baseUrl (some bw) rest
      else
        let uriAbs := if startsHttp line then line else baseUrl ++ "/" ++ line
        (bw, uriAbs) :: parseMasterAux baseUrl none rest
    | none =>
      if strStartsWith line "#EXT-X-STREAM-INF" then
        parseMasterAux baseUrl (some (extractBandwidth line)) rest
      else parseMasterAux baseUrl none rest

/-- The `(bandwidth, uri)` variant list of a master playlist's stripped
lines (vod_downloader.py lines 720-743). -/
def parseMaster (baseUrl : String) (lines : List String) :
    List (Option Nat × String) :=
  parseMasterAux baseUrl none lines

/-- `t[0] or 0`: the sort key of a variant (vod_downloader.py line 755). -/
def keyD (v : Option Nat × String) : Nat := v.1.getD 0

/-- The comparator realizing Python's stable
`variants.sort(key=lambda t: (t[0] or 0), reverse=True)`: a stable sort
with this relation puts higher keys first and keeps the original order
among equal keys, which is what CPython's stable descending sort
produces. -/
def rBW (a b : Option Nat × String) : Prop := keyD b ≤ keyD a

instance : DecidableRel rBW := fun a b => Nat.decLe (keyD b) (keyD a)

instance : IsTotal (Option Nat × String) rBW :=
  ⟨fun a b => (Nat.le_total (keyD b) (keyD a)).elim Or.inl Or.inr⟩

instance : IsTrans (Option Nat × String) rBW :=
  ⟨fun _ _ _ hab hbc => le_trans hbc hab⟩

/-- The preferred-substring loop (vod_downloader.py lines 749-752):
`for _, uri in variants: if preferred_variant in uri: return uri`. -/
def findPreferred (p : String) : List (Option Nat × String) → Option String
  | [] => none
  | v :: vs => if strContainsSub v.2 p then some v.2 else findPreferred p vs

/-- The selection tail of `_pick_variant_from_master` (vod_downloader.py
lines 745-756): an empty variant list returns the input URL; a non-empty
(truthy) preferred string returns the first substring match when there is
one; otherwise the head of the stable descending-bandwidth sort. -/
def selectVariant (playlistUrl : String) (preferred : Option String)
    (variants : List (Option Nat × String)) : String :=
  if variants.isEmpty then playlistUrl
  else
    let prefRes :=
      match preferred with
      | some p => if p ≠ "" then findPreferred p variants else none
      | none => none
    match prefRes with
    | some uri => uri
    | none =>
      match List.insertionSort rBW variants with
      | [] => playlistUrl
      | v :: _ => v.2

/-- `_pick_variant_from_master` once the master playlist text is fetched
(vod_downloader.py lines 713-756): text without a stream-variant marker is
returned unchanged, else the variants are parsed from the stripped lines
and selected from. -/
def pickVariantFromMaster (playlistUrl text : String) (preferred : Option String) :
    String :=
  if strContainsSub text "#EXT-X-STREAM-INF" then
    selectVariant playlistUrl preferred
      (parseMaster (rsplitBase playlistUrl) ((splitOnChar '\n' text).map strTrim))
  else playlistUrl

/-- The numerically highest bandwidth among the parsed variants (0 for a
missing attribute). -/
def maxKey (l : List (Option Nat × String)) : Nat := (l.map keyD).foldr max 0

/-- The claim's bandwidth-selection clause: the variant with the
numerically highest bandwidth, ties broken by first occurrence in file
order — i.e. the first variant whose key attains the maximum. -/
def bestByBandwidth (l : List (Option Nat × String)) : Option String :=
  (l.find? (fun v => keyD v == maxKey l)).map (fun v => v.2)

lemma maxKey_cons (a : Option Nat × String) (l : List (Option Nat × String)) :
    maxKey (a :: l) = max (keyD a) (maxKey l) := rfl

lemma le_maxKey :
    ∀ (l : List (Option Nat × String)) (v : Option Nat × String),
      v ∈ l → keyD v ≤ maxKey l := by
  intro l
  induction l with
  | nil => intro v h; simp at h
  | cons a t ih =>
    intro v h
    rw [maxKey_cons]
    rcases List.mem_cons.mp h with rfl | h
    · exact Nat.le_max_left _ _
    · exact le_trans (ih v h) (Nat.le_max_right _ _)

lemma maxKey_le :
    ∀ (l : List (Option Nat × String)) (c : Nat),
      (∀ v ∈ l, keyD v ≤ c) → maxKey l ≤ c := by
  intro l
  induction l with
  | nil => intro c _; exact Nat.zero_le c
  | cons a t ih =>
    intro c h
    rw [maxKey_cons]
    refine Nat.max_le.mpr ⟨h a (List.mem_cons_self a t), ih c ?_⟩
    intro v hv
    exact h v (List.mem_cons_of_mem a hv)

lemma findPreferred_eq_find? (p : String) :
    ∀ (l : List (Option Nat × String)),
      findPreferred p l =
        (l.find? (fun v => strContainsSub v.2 p)).map (fun v => v.2) := by
  intro l
  induction l with
  | nil => rfl
  | cons v vs ih =>
    unfold findPreferred
    by_cases h : strContainsSub v.2 p = true
    · rw [if_pos h,
        List.find?_cons_of_pos (p := fun w => strContainsSub w.2 p) vs h]
      rfl
    · rw [if_neg h,
        List.find?_cons_of_neg (p := fun w => strContainsSub w.2 p) vs h]
      exact ih

lemma head_insertionSort_rBW :
    ∀ (l : List (Option Nat × String)),
      (List.insertionSort rBW l).head? = l.find? (fun v => keyD v == maxKey l) := by
  intro l
  induction l with
  | nil => rfl
  | cons a t ih =>
    rw [List.insertionSort]
    cases hs : List.insertionSort rBW t with
    | nil =>
      have ht : t = [] := by
        have hp := List.perm_insertionSort rBW t
        rw [hs] at hp
        exact (List.Perm.symm hp).eq_nil
      subst ht
      have hm : maxKey [a] = keyD a := by
        simp [maxKey]
      rw [hm]
      simp [List.orderedInsert, List.find?]
    | cons h s' =>
      have hsorted : List.Sorted rBW (h :: s') := by
        have := List.sorted_insertionSort rBW t
        rwa [hs] at this
      have hperm : List.Perm (h :: s') t := by
        have hp := List.perm_insertionSort rBW t
        rwa [hs] at hp
      have hmem : h ∈ t := hperm.subset (List.mem_cons_self h s')
      have hub : ∀ v ∈ t, keyD v ≤ keyD h := by
        intro v hv
        have hv' : v ∈ h :: s' := hperm.symm.subset hv
        rcases List.mem_cons.mp hv' with rfl | hv''
        · exact le_refl _
        · exact (List.sorted_cons.mp hsorted).1 v hv''
      have hmax : maxKey t = keyD h :=
        le_antisymm (maxKey_le t (keyD h) hub) (le_maxKey t h hmem)
      by_cases hle : keyD h ≤ keyD a
      · have hmaxa : maxKey (a :: t) = keyD a := by
          rw [maxKey_cons, hmax]
          exact Nat.max_eq_left hle
        have hcond : rBW a h := hle
        rw [List.orderedInsert, if_pos hcond, hmaxa,
          List.find?_cons_of_pos (p := fun v => keyD v == keyD a) t (by simp)]
        rfl
      · have hlt : keyD a < keyD h := Nat.lt_of_not_le hle
        have hmaxa : maxKey (a :: t) = keyD h := by
          rw [maxKey_cons, hmax]
          exact Nat.max_eq_right (Nat.le_of_lt hlt)
        have hcond : ¬ rBW a h := hle
        rw [List.orderedInsert, if_neg hcond, hmaxa,
          List.find?_cons_of_neg (p := fun v => keyD v == keyD h) t
            (by simp; omega)]
        rw [← hmax, ← ih, hs]
        rfl

lemma selectVariant_of_no_match (url p : String)
    (variants : List (Option Nat × String))
    (hnone : findPreferred p variants = none) :
    selectVariant url (some p) variants = selectVariant url none variants := by
  unfold selectVariant
  by_cases hp : p = ""
  · simp [hp]
  · simp [hp, hnone]

lemma selectVariant_none_eq_best (url : String)
    (variants : List (Option Nat × String)) (hne : variants ≠ []) :
    some (selectVariant url none variants) = bestByBandwidth variants := by
  have hemp : variants.isEmpty = false := by
    cases variants
    · exact absurd rfl hne
    · rfl
  unfold selectVariant bestByBandwidth
  rw [hemp]
  have hhead := head_insertionSort_rBW variants
  cases hs : List.insertionSort rBW variants with
  | nil =>
    have : variants = [] := by
      have hp := List.perm_insertionSort rBW variants
      rw [hs] at hp
      exact (List.Perm.symm hp).eq_nil
    exact absurd this hne
  | cons v s' =>
    rw [hs] at hhead
    rw [← hhead]
    rfl

/-- C4: with at least one parsed variant, selection returns (a) the first
variant in file order whose URI contains the non-empty preferred string as
a substring, when one exists, and (b) otherwise the variant with the
numerically highest bandwidth, ties broken by first occurrence; with the
claim's variants [(500, low), (2000, high)], a preferred string matching
neither URI selects the bandwidth-2000 entry and a preferred string that is
a substring of the low URI selects it regardless of bandwidth, also when
starting from the raw master-playlist text. -/
theorem variant_selection (url p : String) (variants : List (Option Nat × String)) :
    (p ≠ "" → ∀ u, findPreferred p variants = some u →
      selectVariant url (some p) variants = u) ∧
    (findPreferred p variants =
      (variants.find? (fun v => strContainsSub v.2 p)).map (fun v => v.2)) ∧
    (variants ≠ [] → findPreferred p variants = none →
      some (selectVariant url (some p) variants) = bestByBandwidth variants) ∧
    (variants ≠ [] →
      some (selectVariant url none variants) = bestByBandwidth variants) ∧
    (selectVariant "m" (some "480p30")
      [(some 500, "low/pl.m3u8"), (some 2000, "high/pl.m3u8")] = "high/pl.m3u8") ∧
    (selectVariant "m" (some "low")
      [(some 500, "low/pl.m3u8"), (some 2000, "high/pl.m3u8")] = "low/pl.m3u8") ∧
    (pickVariantFromMaster "https://h/master.m3u8"
      "#EXTM3U\n#EXT-X-STREAM-INF:BANDWIDTH=500\nlow/pl.m3u8\n#EXT-X-STREAM-INF:BANDWIDTH=2000\nhigh/pl.m3u8"
      (some "480p30") = "https://h/high/pl.m3u8") ∧
    (pickVariantFromMaster "https://h/master.m3u8"
      "#EXTM3U\n#EXT-X-STREAM-INF:BANDWIDTH=500\nlow/pl.m3u8\n#EXT-X-STREAM-INF:BANDWIDTH=2000\nhigh/pl.m3u8"
      (some "low") = "https://h/low/pl.m3u8") := by
  refine ⟨?_, findPreferred_eq_find? p variants, ?_,
      selectVariant_none_eq_best url variants, by decide, by decide, by decide,
      by decide⟩
  · intro hp u hu
    have hemp : variants.isEmpty = false := by
      cases hv : variants
      · rw [hv] at hu; simp [findPreferred] at hu
      · rfl
    unfold selectVariant
    rw [hemp]
    simp [hp, hu]
  · intro hne hnone
    rw [selectVariant_of_no_match url p variants hnone]
    exact selectVariant_none_eq_best url variants hne

/-- Concrete instance of C4: preferred "480p30" matching neither variant
URI selects the bandwidth-2000 entry. -/
theorem variant_selection_w :
    selectVariant "m" (some "480p30")
      [(some 500, "low/pl.m3u8"), (some 2000, "high/pl.m3u8")] = "high/pl.m3u8" :=
  (variant_selection "m" "x" []).2.2.2.2.1

/-! ## Archive assembly ordering (`convert_all_segments_to_mp3`,
vod_downloader.py 374-383) -/

/-- `re.search(r'(\d+)', name)`: the first maximal digit run of the name. -/
def firstDigitRun : List Char → Option (List Char)
  | [] => none
  | c :: cs =>
    if c.isDigit then some (c :: cs.takeWhile Char.isDigit) else firstDigitRun cs

/-- The first embedded integer of a filename, `none` when the name holds no
digit. -/
def firstIntOf (name : String) : Option Nat :=
  (firstDigitRun name.data).map digitsToNat

/-- `sort_key` (vod_downloader.py lines 380-382):
`(int(m.group(1)) if m else 10**12, name)`. -/
def sortKey (name : String) : Nat × String :=
  match firstIntOf name with
  | some n => (n, name)
  | none => (10 ^ 12, name)

/-- Python's string comparison on the names (code-point lexicographic). -/
def charListLe : List Char → List Char → Bool
  | [], _ => true
  | _ :: _, [] => false
  | a :: as, b :: bs =>
    if a.toNat < b.toNat then true
    else if b.toNat < a.toNat then false
    else charListLe as bs

def strLe (a b : String) : Bool := charListLe a.data b.data

/-- Python's tuple order on `sort_key` values: first component ascending,
name breaking ties (the second tuple component is the name itself). -/
def fileOrd (a b : String) : Prop :=
  (sortKey a).1 < (sortKey b).1 ∨
    ((sortKey a).1 = (sortKey b).1 ∧ strLe a b = true)

instance : DecidableRel fileOrd := fun a b => by
  unfold fileOrd
  infer_instance

lemma charListLe_cons_iff (a b : Char) (as bs : List Char) :
    charListLe (a :: as) (b :: bs) = true ↔
      a.toNat < b.toNat ∨ (a.toNat = b.toNat ∧ charListLe as bs = true) := by
  have hstep : charListLe (a :: as) (b :: bs) =
      (if a.toNat < b.toNat then true
       else if b.toNat < a.toNat then false else charListLe as bs) := rfl
  rw [hstep]
  by_cases h1 : a.toNat < b.toNat
  · rw [if_pos h1]
    simp [h1]
  · rw [if_neg h1]
    by_cases h2 : b.toNat < a.toNat
    · rw [if_pos h2]
      simp only [Bool.false_eq_true, false_iff]
      intro hcon
      rcases hcon with h | ⟨h, _⟩
      · omega
      · omega
    · rw [if_neg h2]
      have he : a.toNat = b.toNat := by omega
      simp [h1, he]

lemma charListLe_total :
    ∀ (x y : List Char), charListLe x y = true ∨ charListLe y x = true := by
  intro x
  induction x with
  | nil => intro y; left; rfl
  | cons a as ih =>
    intro y
    cases y with
    | nil => right; rfl
    | cons b bs =>
      by_cases h1 : a.toNat < b.toNat
      · left
        rw [charListLe_cons_iff]
        exact Or.inl h1
      · by_cases h2 : b.toNat < a.toNat
        · right
          rw [charListLe_cons_iff]
          exact Or.inl h2
        · have he : a.toNat = b.toNat := by omega
          rcases ih bs with h | h
          · left
            rw [charListLe_cons_iff]
            exact Or.inr ⟨he, h⟩
          · right
            rw [charListLe_cons_iff]
            exact Or.inr ⟨he.symm, h⟩

lemma charListLe_trans :
    ∀ (x y z : List Char), charListLe x y = true → charListLe y z = true →
      charListLe x z = true := by
  intro x
  induction x with
  | nil => intro y z _ _; rfl
  | cons a as ih =>
    intro y z hxy hyz
    cases y with
    | nil => simp [charListLe] at hxy
    | cons b bs =>
      cases z with
      | nil => simp [charListLe] at hyz
      | cons c cs =>
        rw [charListLe_cons_iff] at hxy hyz ⊢
        rcases hxy with h1 | ⟨h1, h1'⟩ <;> rcases hyz with h2 | ⟨h2, h2'⟩
        · exact Or.inl (by omega)
        · exact Or.inl (by omega)
        · exact Or.inl (by omega)
        · exact Or.inr ⟨by omega, ih bs cs h1' h2'⟩

instance : IsTotal String fileOrd := ⟨by
  intro a b
  unfold fileOrd
  rcases Nat.lt_trichotomy (sortKey a).1 (sortKey b).1 with h | h | h
  · exact Or.inl (Or.inl h)
  · rcases charListLe_total a.data b.data with hc | hc
    · exact Or.inl (Or.inr ⟨h, hc⟩)
    · exact Or.inr (Or.inr ⟨h.symm, hc⟩)
  · exact Or.inr (Or.inl h)⟩

instance : IsTrans String fileOrd := ⟨by
  intro a b c hab hbc
  unfold fileOrd at hab hbc ⊢
  rcases hab with h1 | ⟨h1, h1'⟩ <;> rcases hbc with h2 | ⟨h2, h2'⟩
  · exact Or.inl (by omega)
  · exact Or.inl (by omega)
  · exact Or.inl (by omega)
  · exact Or.inr ⟨h1.trans h2, charListLe_trans _ _ _ h1' h2'⟩⟩

/-- `files.sort(key=sort_key)` (vod_downloader.py line 383): since the key
embeds the full name, `fileOrd` is antisymmetric on distinct names and the
sorted result is the unique ascending ordering Python produces. -/
def sortSegmentFiles (files : List String) : List String :=
  List.insertionSort fileOrd files

/-- C8 counterexample to the claim as stated: "1000000000001.ts" has first
embedded integer 1000000000001, which is larger than the sentinel key
`10 ** 12` that the code assigns to names without digits, so the
no-integer file "a.ts" is placed before a numbered file instead of after
all numbered files. -/
theorem segment_sort_counterexample :
    firstIntOf "1000000000001.ts" = some 1000000000001 ∧
    firstIntOf "a.ts" = none ∧
    sortSegmentFiles ["1000000000001.ts", "a.ts"] =
      ["a.ts", "1000000000001.ts"] := by
  refine ⟨by decide, by decide, by decide⟩

/-- C8 amended: archive assembly sorts the filenames by the pair (first
embedded integer, with `10 ** 12` substituted when no integer parses;
then the filename) in ascending lexicographic order — files whose integer
is below `10 ** 12` come in integer order before the no-integer files,
the no-integer files are ordered among themselves by filename, a file
whose first embedded integer is strictly larger than `10 ** 12` sorts
after all no-integer files (the no-integer file strictly precedes it in
the order), one whose integer is exactly `10 ** 12` ties with the
sentinel and is placed against no-integer files by the filename
tie-break, and the result is a deterministic permutation of the input. -/
theorem segment_sort_order (files : List String) :
    List.Perm (sortSegmentFiles files) files ∧
    List.Sorted fileOrd (sortSegmentFiles files) ∧
    (∀ name, firstIntOf name = none → sortKey name = (10 ^ 12, name)) ∧
    (∀ name n, firstIntOf name = some n → sortKey name = (n, name)) ∧
    (∀ a b n, firstIntOf a = none → firstIntOf b = some n → 10 ^ 12 < n →
      fileOrd a b ∧ ¬ fileOrd b a) ∧
    sortSegmentFiles ["seg_10.ts", "x.ts", "seg_2.ts"] =
      ["seg_2.ts", "seg_10.ts", "x.ts"] ∧
    sortSegmentFiles ["a.ts", "1000000000000.ts"] =
      ["1000000000000.ts", "a.ts"] := by
  refine ⟨List.perm_insertionSort fileOrd files,
    List.sorted_insertionSort fileOrd files, ?_, ?_, ?_, by decide, by decide⟩
  · intro name h
    simp [sortKey, h]
  · intro name n h
    simp [sortKey, h]
  · intro a b n ha hb hn
    have hka : sortKey a = (10 ^ 12, a) := by simp [sortKey, ha]
    have hkb : sortKey b = (n, b) := by simp [sortKey, hb]
    constructor
    · unfold fileOrd
      rw [hka, hkb]
      exact Or.inl hn
    · unfold fileOrd
      rw [hkb, hka]
      intro hcon
      rcases hcon with h | ⟨h, _⟩
      · simp at h
        omega
      · simp at h
        omega

/-- Concrete instance of the amended C8 ordering: numeric ordinals sort
numerically (2 before 10) and a digit-less name sorts after them. -/
theorem segment_sort_order_w :
    sortSegmentFiles ["seg_10.ts", "x.ts", "seg_2.ts"] =
      ["seg_2.ts", "seg_10.ts", "x.ts"] :=
  (segment_sort_order []).2.2.2.2.2.1

end KickVod
